import Mathlib

/-!
Shallow embedding of the liftedmerk core: the Merkle AVL tree node engine
(`src/tree/mod.rs`) and the proof map (`src/proofs/query/map_js.rs`),
together with theorems checking the specification's claims against it.

Keys, values and hashes are byte strings, modelled as lists of naturals.
Rust panics (including debug assertions) are modelled as fatal errors and
`failure`-crate errors (`bail!` / `ensure!` / `format_err!`) as recoverable
errors, matching the spec's two error classes.
-/

namespace LiftedMerk

abbrev Key := List Nat
abbrev Value := List Nat
abbrev Hash := List Nat

def HASH_LENGTH : Nat := 20

/-- Embeds `NULL_HASH`: the fixed all-zero sentinel hash used when a side has no
child (exported by the missing `tree/hash.rs`; its value is pinned by the
spec as "a fixed all-zero sentinel" and by `HASH_LENGTH = 20` in the tests). -/
def NULL_HASH : Hash := List.replicate HASH_LENGTH 0

/-- Modelled from the spec: the raw key/value hashing primitive is an external
collaborator ("the raw hash function and key/value hashing primitives" are out
of scope). Modelled as an injective encoding of the key/value pair. -/
def kv_hash (key : Key) (value : Value) : Hash :=
  0 :: key.length :: (key ++ value)

/-- Modelled from the spec: the raw node hash primitive `H(kv, left, right)`
is an external collaborator. Modelled as an injective encoding of the three
input hashes. -/
def node_hash (kv left right : Hash) : Hash :=
  1 :: kv.length :: (kv ++ left.length :: (left ++ right))

/-- Errors, split into the spec's two classes: fatal contract violations
(Rust panics and debug assertions) and recoverable data/proof validity
errors (the `failure` crate's `Result` errors). -/
inductive Err where
  | fatal (msg : String)
  | recoverable (msg : String)
deriving DecidableEq

/-- The key/value pair of a node plus its cached `kv_hash`
(`tree/kv.rs`, reconstructed from its use in `tree/mod.rs`). -/
structure KV where
  key : Key
  value : Value
  hash : Hash
deriving DecidableEq

/-- Embeds `KV::new`: hashes the key/value pair at construction. -/
def KV.new (key : Key) (value : Value) : KV :=
  ⟨key, value, kv_hash key value⟩

mutual

/-- The three-variant `Link` (`tree/link.rs`, reconstructed from its use in
`tree/mod.rs` and the spec): `Pruned` (hash-only) carries the hash, child
heights and key of the node it refers to; `Modified` (materialized-dirty)
carries a pending-write count, child heights and the in-memory subtree;
`Stored` (materialized-clean) carries the hash, child heights and subtree. -/
inductive Link where
  | pruned (hash : Hash) (childHeights : Nat × Nat) (key : Key)
  | modified (pendingWrites : Nat) (childHeights : Nat × Nat) (tree : Tree)
  | stored (hash : Hash) (childHeights : Nat × Nat) (tree : Tree)

/-- Embeds `Tree` / `TreeInner`: a node owning a key/value pair and up to two
child links. -/
inductive Tree where
  | mk (kv : KV) (left : Option Link) (right : Option Link)

end

/-- The node's key/value pair. -/
def Tree.kv : Tree → KV
  | .mk kv _ _ => kv

/-- The node's left link slot. -/
def Tree.leftLink : Tree → Option Link
  | .mk _ l _ => l

/-- The node's right link slot. -/
def Tree.rightLink : Tree → Option Link
  | .mk _ _ r => r

/-- Embeds `Tree::key`. -/
def Tree.key (t : Tree) : Key := t.kv.key

/-- Embeds `Tree::value`. -/
def Tree.value (t : Tree) : Value := t.kv.value

/-- Embeds `Tree::kv_hash`. -/
def Tree.kvHash (t : Tree) : Hash := t.kv.hash

/-- Embeds `Tree::new`: a tree with the given key and value and no children. -/
def Tree.new (key : Key) (value : Value) : Tree :=
  .mk (KV.new key value) none none

/-- Embeds `Tree::from_fields`: build a tree from raw fields (the `kv_hash` and
links are not ensured to be correct). -/
def Tree.from_fields (key : Key) (value : Value) (kvHash : Hash)
    (left right : Option Link) : Tree :=
  .mk ⟨key, value, kvHash⟩ left right

/-- Embeds `Tree::link`: the link on the given side (`true` = left). -/
def Tree.link (t : Tree) (left : Bool) : Option Link :=
  if left then t.leftLink else t.rightLink

/-- Replace the link slot on the given side. -/
def Tree.withSlot (t : Tree) (left : Bool) (l : Option Link) : Tree :=
  if left then .mk t.kv l t.rightLink else .mk t.kv t.leftLink l

/-- Embeds `Link::key`: the key of the node the link points to (`tree/link.rs`,
reconstructed: pruned links record the key, materialized links read it from
the in-memory tree). -/
def Link.key : Link → Key
  | .pruned _ _ key => key
  | .modified _ _ tree => tree.key
  | .stored _ _ tree => tree.key

/-- The child-heights pair carried by every link variant. -/
def Link.childHeights : Link → Nat × Nat
  | .pruned _ ch _ => ch
  | .modified _ ch _ => ch
  | .stored _ ch _ => ch

/-- Embeds `Link::height` (`tree/link.rs`, reconstructed from the spec: the pair
of child heights is carried so height can be reported without materializing
the subtree): one plus the larger child height. -/
def Link.height (l : Link) : Nat :=
  1 + max l.childHeights.1 l.childHeights.2

/-- Embeds `Link::hash`, made partial: pruned and stored links carry a valid cached
hash; per the spec a materialized-dirty link's "hash [is] not yet valid", so
reading it is a contract violation (`none`). -/
def Link.hash? : Link → Option Hash
  | .pruned hash _ _ => some hash
  | .modified _ _ _ => none
  | .stored hash _ _ => some hash

/-- Embeds `Tree::child_hash`: the hash of the child on the given side, or
`NULL_HASH` if there is no child; `none` models the panic of reading the
hash of a modified link. -/
def Tree.childHash? (t : Tree) (left : Bool) : Option Hash :=
  match t.link left with
  | none => some NULL_HASH
  | some l => l.hash?

/-- Embeds `Tree::hash`: `node_hash(kv_hash, child_hash(left), child_hash(right))`;
`none` models the panic of hashing a node with a modified child link. -/
def Tree.hash? (t : Tree) : Option Hash :=
  match t.childHash? true, t.childHash? false with
  | some l, some r => some (node_hash t.kvHash l r)
  | _, _ => none

/-- Embeds `Tree::child_height`: the height of the child on the given side, `0` if
there is no child. -/
def Tree.childHeight (t : Tree) (left : Bool) : Nat :=
  (t.link left).elim 0 Link.height

/-- Embeds `Tree::child_heights`. -/
def Tree.childHeights (t : Tree) : Nat × Nat :=
  (t.childHeight true, t.childHeight false)

/-- Embeds `Tree::height`: `1 + max(left_height, right_height)`. -/
def Tree.height (t : Tree) : Nat :=
  1 + max (t.childHeight true) (t.childHeight false)

/-- Embeds `Tree::balance_factor`: right height minus left height. -/
def Tree.balanceFactor (t : Tree) : Int :=
  (t.childHeight false : Int) - (t.childHeight true : Int)

/-- Embeds `Tree::child_pending_writes`: the pending-write count of the link on the
given side, `0` unless it is a modified link. -/
def Tree.childPendingWrites (t : Tree) (left : Bool) : Nat :=
  match t.link left with
  | some (.modified pw _ _) => pw
  | _ => 0

/-- Embeds `Link::maybe_from_modified_tree` (`tree/link.rs`, reconstructed from the
spec: a link is "created dirty on attach" and "carries a count of pending
(uncommitted) writes in its subtree"; the `child_pending_writes` test pins
the count of a fresh leaf at 1). -/
def Link.maybeFromModifiedTree : Option Tree → Option Link
  | none => none
  | some t =>
    some (.modified (1 + t.childPendingWrites true + t.childPendingWrites false)
      t.childHeights t)

/-- Embeds `Link::into_pruned` (`tree/link.rs`, reconstructed): a pruned link stays
itself, a stored link degrades to a pruned link keeping its hash, child
heights and key; pruning a modified link is a contract violation (`none`). -/
def Link.intoPruned? : Link → Option Link
  | .pruned hash ch key => some (.pruned hash ch key)
  | .stored hash ch tree => some (.pruned hash ch tree.key)
  | .modified _ _ _ => none

/-- Embeds `Tree::attach`: installs `maybeChild` as a modified link on the given
side. The source's `debug_assert_ne!` on equal keys and the panic on an
occupied slot are modelled as fatal errors, in source order. -/
def Tree.attach (t : Tree) (left : Bool) (maybeChild : Option Tree) :
    Except Err Tree :=
  if maybeChild.map Tree.key = some t.key then
    .error (.fatal "Tried to attach tree with same key")
  else if (t.link left).isSome then
    .error (.fatal "Tried to attach to tree slot, but it is already Some")
  else
    .ok (t.withSlot left (Link.maybeFromModifiedTree maybeChild))

/-- Embeds `Tree::detach`: removes and returns the child on the given side;
pruned links detach as `none`. -/
def Tree.detach (t : Tree) (left : Bool) : Tree × Option Tree :=
  match t.link left with
  | none => (t.withSlot left none, none)
  | some (.pruned _ _ _) => (t.withSlot left none, none)
  | some (.modified _ _ tree) => (t.withSlot left none, some tree)
  | some (.stored _ _ tree) => (t.withSlot left none, some tree)

/-- The `Fetch` source trait (`tree/walk.rs`, interface only): fetch the
subtree a pruned link refers to. -/
structure Source where
  fetch : Link → Except Err Tree

/-- Embeds `Tree::load`: requires the link on the given side to be pruned (fatal
otherwise, including when there is no link), fetches the node from the
source, checks the fetched key against the link's recorded key (the source's
`debug_assert_eq!`, modelled as a fatal error), and installs a stored link
carrying the link's previously known hash and child heights. -/
def Tree.load (t : Tree) (left : Bool) (source : Source) : Except Err Tree :=
  match t.link left with
  | none => .error (.fatal "Expected link")
  | some link =>
    match link with
    | .modified _ _ _ => .error (.fatal "Expected Some of Link Pruned")
    | .stored _ _ _ => .error (.fatal "Expected Some of Link Pruned")
    | .pruned hash childHeights _ =>
      match source.fetch link with
      | .error e => .error e
      | .ok tree =>
        if tree.key = link.key then
          .ok (t.withSlot left (some (.stored hash childHeights tree)))
        else
          .error (.fatal "fetched tree key does not match link key")

/-- The `Commit` sink trait (`tree/commit.rs`, interface only): persist a
node and decide per side whether to prune the in-memory child. -/
structure CommitSink where
  write : Tree → Except Err Unit
  prune : Tree → Bool × Bool

/-- Embeds `NoopCommit`: a sink whose `write` always succeeds and that never
prunes. -/
def NoopCommit : CommitSink :=
  ⟨fun _ => .ok (), fun _ => (false, false)⟩

/-- Prune one slot after a successful write (`self.inner.left.take().map(
into_pruned)` in `Tree::commit`); pruning a modified link is a contract
violation. -/
def pruneSlot : Option Link → Except Err (Option Link)
  | none => .ok none
  | some l =>
    match l.intoPruned? with
    | some p => .ok (some p)
    | none => .error (.fatal "Cannot prune modified link")

mutual

/-- One side's first phase of `Tree::commit`: a modified link is taken from
its slot, its subtree recursively committed, and a stored link with the
freshly computed hash reinstalled. On a failed recursive commit the slot is
left empty (the source `take()`s the link and the `?` operator returns
before it is reinstalled). Reading the hash of a tree whose own commit left
a modified top link would panic (`none` from `Tree.hash?`), modelled as a
fatal error. -/
def commitLink (c : CommitSink) : Option Link → Option Link × Option Err
  | some (.modified _ ch tree) =>
    match commitGo c tree with
    | (_, some e) => (none, some e)
    | (tree', none) =>
      match tree'.hash? with
      | none => (none, some (.fatal "Cannot get hash of modified link"))
      | some h => (some (.stored h ch tree'), none)
  | l => (l, none)

/-- Embeds `Tree::commit`, with the post-call tree state made explicit: commit the
left then the right modified link (post-order), write the node to the sink,
then apply the sink's prune decisions. The first component is the tree as
left in memory when the call returns, the second is the error, if any. -/
def commitGo (c : CommitSink) : Tree → Tree × Option Err
  | .mk kv l r =>
    match commitLink c l with
    | (l', some e) => (.mk kv l' r, some e)
    | (l', none) =>
      match commitLink c r with
      | (r', some e) => (.mk kv l' r', some e)
      | (r', none) =>
        let t := Tree.mk kv l' r'
        match c.write t with
        | .error e => (t, some e)
        | .ok _ =>
          let pr := c.prune t
          match (if pr.1 then pruneSlot l' else .ok l') with
          | .error e => (t, some e)
          | .ok l'' =>
            match (if pr.2 then pruneSlot r' else .ok r') with
            | .error e => (t, some e)
            | .ok r'' => (.mk kv l'' r'', none)

end

mutual

/-- No materialized-dirty (`Modified`) link anywhere in the tree. -/
def Tree.noModifiedB : Tree → Bool
  | .mk _ l r => slotNoModified l && slotNoModified r

/-- No materialized-dirty link in or below the given slot. -/
def slotNoModified : Option Link → Bool
  | none => true
  | some (.pruned _ _ _) => true
  | some (.modified _ _ _) => false
  | some (.stored _ _ tree) => tree.noModifiedB

end

mutual

/-- No materialized-clean (`Stored`) link's subtree contains a
materialized-dirty link. -/
def Tree.storedCleanB : Tree → Bool
  | .mk _ l r => slotStoredClean l && slotStoredClean r

/-- The slot-level form of `Tree.storedCleanB`: a stored link's subtree must
be entirely free of modified links, a modified link's subtree is checked
recursively. -/
def slotStoredClean : Option Link → Bool
  | none => true
  | some (.pruned _ _ _) => true
  | some (.modified _ _ tree) => tree.storedCleanB
  | some (.stored _ _ tree) => tree.noModifiedB

end

mutual

/-- The semantic Merkle root of a tree: the recursive `node_hash`
composition, trusting the cached hash of pruned links (their subtrees are
not in memory). -/
def Tree.semHash : Tree → Hash
  | .mk kv l r => node_hash kv.hash (slotSemHash l) (slotSemHash r)

/-- The semantic Merkle hash contributed by one slot. -/
def slotSemHash : Option Link → Hash
  | none => NULL_HASH
  | some (.pruned hash _ _) => hash
  | some (.modified _ _ tree) => tree.semHash
  | some (.stored _ _ tree) => tree.semHash

end

mutual

/-- Every stored link's cached hash equals the semantic Merkle root of its
subtree, recursively. -/
def Tree.hashesValidB : Tree → Bool
  | .mk _ l r => slotHashesValid l && slotHashesValid r

/-- The slot-level form of `Tree.hashesValidB`. -/
def slotHashesValid : Option Link → Bool
  | none => true
  | some (.pruned _ _ _) => true
  | some (.modified _ _ tree) => tree.hashesValidB
  | some (.stored hash _ tree) => hash = tree.semHash && tree.hashesValidB

end

/-! ### The proof map (`src/proofs/query/map_js.rs`) -/

/-- The proof `Node` enum (`proofs/mod.rs`, interface only, per the spec:
"an ordered sequence of one of (full leaf(key, value), leaf-hash-only(hash),
subtree-hash-only(hash))"). -/
inductive PNode where
  | kv (key : Key) (value : Value)
  | kvHash (hash : Hash)
  | hash (hash : Hash)

/-- Strict lexicographic order on byte strings, as Rust's `Ord` on
`Vec<u8>`: the first differing byte decides, and a proper prefix is
smaller. -/
def keyLt : Key → Key → Bool
  | [], [] => false
  | [], _ :: _ => true
  | _ :: _, [] => false
  | a :: as, b :: bs =>
    if a < b then true
    else if b < a then false
    else keyLt as bs

/-- Non-strict lexicographic order on byte strings. -/
def keyLe (a b : Key) : Bool := !keyLt b a

/-- One map entry: `key -> (contiguous, value)`. -/
abbrev Entry := Key × Bool × Value

/-- Embeds `BTreeMap::insert` on the sorted entry list: insert in key order,
replacing the entry of an equal key. -/
def entriesInsert (k : Key) (v : Bool × Value) :
    List Entry → List Entry
  | [] => [(k, v.1, v.2)]
  | (k', v') :: rest =>
    if keyLt k k' then (k, v.1, v.2) :: (k', v') :: rest
    else if k = k' then (k, v.1, v.2) :: rest
    else (k', v') :: entriesInsert k v rest

/-- Embeds `JsMap`: the entries extracted from a proof (a `BTreeMap`, modelled as a
key-sorted list) plus the `right_edge` flag. -/
structure JsMap where
  entries : List Entry
  right_edge : Bool
deriving DecidableEq

/-- Embeds `BTreeMap::last_key_value`: the maximum-key entry, which on the sorted
entry list is the last one. -/
def JsMap.lastKeyValue (m : JsMap) : Option Entry :=
  m.entries.getLast?

/-- Embeds `BTreeMap::get`: look up the entry of an exactly matching key. -/
def JsMap.getEntry (m : JsMap) (key : Key) : Option (Bool × Value) :=
  (m.entries.find? (fun e => e.1 = key)).map (fun e => e.2)

/-- Embeds `JsMapBuilder::new`: an empty map with `right_edge = true`. -/
def JsMapBuilder.new : JsMap :=
  ⟨[], true⟩

/-- Embeds `JsMapBuilder::insert`: a full key/value leaf must have a key strictly
greater than the previous entry's (else a recoverable ordering error); it is
stored with `contiguous` equal to the current `right_edge`, which is then set
to `true`. Any other proof node sets `right_edge` to `false`. -/
def JsMapBuilder.insert (b : JsMap) (node : PNode) : Except Err JsMap :=
  match node with
  | .kv key value =>
    match b.lastKeyValue with
    | some (prevKey, _, _) =>
      if keyLt prevKey key then
        .ok ⟨entriesInsert key (b.right_edge, value) b.entries, true⟩
      else
        .error (.recoverable "Expected nodes to be in increasing key order")
    | none => .ok ⟨entriesInsert key (b.right_edge, value) b.entries, true⟩
  | _ => .ok ⟨b.entries, false⟩

/-- Folding `JsMapBuilder::insert` over a proof node sequence starting from
`JsMapBuilder::new`, then `build` (which returns the inner map unchanged). -/
def buildFromList (nodes : List PNode) : Except Err JsMap :=
  nodes.foldlM JsMapBuilder.insert JsMapBuilder.new

/-- Embeds `JsFlatMap`: the state of a `range` iteration — the entries of the
requested bound still to be yielded, the previously yielded key, the range's
start key, and the map itself (needed by the end-bound check). -/
structure JsFlatMap where
  inner : List Entry
  prev_key : Option Key
  start_key : Option Key
  map : JsMap

/-- Embeds `JsMap::range`: both bounds are inclusive (`Bound::Included`); the inner
entry list is the key-sorted slice of entries within the bounds. -/
def JsMap.range (m : JsMap) (startBound endBound : Key) : JsFlatMap :=
  { inner := m.entries.filter
      (fun e => keyLe startBound e.1 && keyLe e.1 endBound)
    prev_key := none
    start_key := some startBound
    map := m }

/-- Embeds `check_end_bound`: with no previous key, the range is valid only if
`right_edge` is true; with a previous key, the next stored entry strictly
greater than it (if any) must be contiguous, and if there is none the
`right_edge` flag must be true. -/
def check_end_bound (prevKey : Option Key) (map : JsMap) : Option Err :=
  let excludedData : Bool :=
    match prevKey with
    | none => !map.right_edge
    | some key =>
      match (map.entries.filter (fun e => keyLt key e.1)).head? with
      | none => !map.right_edge
      | some (_, contiguous, _) => !contiguous
  if excludedData then
    some (.recoverable "Proof is missing data for query")
  else
    none

/-- Embeds `JsFlatMap::next` (`Iterator::next`): on an exhausted inner list run the
end-bound check; otherwise record the entry's key as previous, skip the
contiguity check only on an exact match of the start key, and yield either
the entry or the missing-data error. -/
def JsFlatMap.next (fm : JsFlatMap) :
    Option (Except Err (Key × Value)) × JsFlatMap :=
  match fm.inner with
  | [] =>
    match check_end_bound fm.prev_key fm.map with
    | some e => (some (.error e), fm)
    | none => (none, fm)
  | (key, contiguous, value) :: rest =>
    let fm := { fm with inner := rest, prev_key := some key }
    let skipExclusionCheck := fm.start_key = some key
    if !skipExclusionCheck && !contiguous then
      (some (.error (.recoverable "Proof is missing data for query")), fm)
    else
      (some (.ok (key, value)), fm)

/-- The sequence a consumer obtains from the `range` iterator: Ok items
until the first `None` or error; a Rust consumer of a fallible iterator
stops at the first error, so the sequence is the yielded pairs plus an
optional terminal error. -/
def runRangeGo (map : JsMap) (startKey : Option Key) :
    List Entry → Option Key → List (Key × Value) × Option Err
  | [], prevKey =>
    match check_end_bound prevKey map with
    | some e => ([], some e)
    | none => ([], none)
  | (key, contiguous, value) :: rest, _ =>
    let skipExclusionCheck := startKey = some key
    if !skipExclusionCheck && !contiguous then
      ([], some (.recoverable "Proof is missing data for query"))
    else
      let tl := runRangeGo map startKey rest (some key)
      ((key, value) :: tl.1, tl.2)

/-- Consume a `range` iterator from its initial state. -/
def JsFlatMap.run (fm : JsFlatMap) : List (Key × Value) × Option Err :=
  runRangeGo fm.map fm.start_key fm.inner fm.prev_key

/-- Embeds `JsMap::get`: an exact hit in the entry set returns the stored value;
otherwise one step of a range query with both bounds equal to the key, where
`None` means a proven absence and an error is propagated. -/
def JsMap.get (m : JsMap) (key : Key) : Except Err (Option Value) :=
  match m.getEntry key with
  | some (_, value) => .ok (some value)
  | none =>
    match (m.range key key).next with
    | (none, _) => .ok none
    | (some (.ok (_, value)), _) => .ok (some value)
    | (some (.error e), _) => .error e

/-! ### Concrete fixtures used by the claims' examples -/

/-- An arbitrary 20-byte hash for hash-only proof nodes. -/
def h20 : Hash := List.replicate 20 0

/-- The map built from the gapped proof
`[1,2,3]->[1], hash-only, [1,2,4]->[2]`. -/
def mGap : JsMap := ⟨[([1,2,3], true, [1]), ([1,2,4], false, [2])], true⟩

/-- The map built from the contiguous proof `[1,2,3]->[1], [1,2,4]->[2]`. -/
def mCont : JsMap := ⟨[([1,2,3], true, [1]), ([1,2,4], true, [2])], true⟩

/-- The fully contiguous three-leaf map. -/
def m3 : JsMap :=
  ⟨[([1,2,3], true, [1]), ([1,2,4], true, [2]), ([1,2,5], true, [3])], true⟩

/-- A sink whose `write` fails (recoverably) on the node with key `[2]`. -/
def failSink : CommitSink :=
  ⟨fun t => if t.key = [2] then .error (.recoverable "write failed") else .ok (),
   fun _ => (false, false)⟩

/-- A tree whose left slot holds a materialized-dirty link to the leaf
`[2] -> [3]`. -/
def tDirty : Tree :=
  .mk (KV.new [0] [1]) (some (.modified 1 (0, 0) (Tree.new [2] [3]))) none

/-- A sink whose `write` fails (recoverably) on the node with key `[4]`
and succeeds on every other node. -/
def failRightSink : CommitSink :=
  ⟨fun t => if t.key = [4] then .error (.recoverable "write failed") else .ok (),
   fun _ => (false, false)⟩

/-- A tree with two materialized-dirty links: left to the leaf `[2] -> [3]`,
right to the leaf `[4] -> [5]`. -/
def tTwoDirty : Tree :=
  .mk (KV.new [0] [1])
    (some (.modified 1 (0, 0) (Tree.new [2] [3])))
    (some (.modified 1 (0, 0) (Tree.new [4] [5])))

/-- A tree whose left slot is a pruned link recording key `[2]`. -/
def tPruned : Tree :=
  .mk (KV.new [1] [10]) (some (.pruned h20 (0, 0) [2])) none

/-- A source that returns a node with key `[3]`, regardless of the link. -/
def badSource : Source := ⟨fun _ => .ok (Tree.new [3] [30])⟩

/-- A source that returns a node whose key matches `tPruned`'s link. -/
def goodSource : Source := ⟨fun _ => .ok (Tree.new [2] [20])⟩

/-- Whether a result is a recoverable error. -/
def isRecoverableResult : Except Err Tree → Bool
  | .error (.recoverable _) => true
  | _ => false

/-- Whether the link in a slot is materialized-dirty. -/
def slotIsModified : Option Link → Bool
  | some (.modified _ _ _) => true
  | _ => false

/-! ### Claim theorems -/

/-- Claim C1, counterexample: committing `tDirty` with a sink that fails to
write the child leaves the left slot empty (`none`), not in its pre-call
`Modified` state, refuting "the link for the failed branch is left exactly
as it was before the call, still Materialized-dirty". -/
theorem commit_failed_branch_counterexample :
    commitGo failSink tDirty =
      (Tree.mk (KV.new [0] [1]) none none, some (.recoverable "write failed"))
    ∧ slotIsModified (commitGo failSink tDirty).1.leftLink = false := by
  exact ⟨rfl, rfl⟩

/-- Claim C1, amended: `commit` propagates a sink-write or recursive
child-commit failure verbatim at each of its three failure points, but the
in-memory link state is not left as it was: the slot whose child commit
failed is left empty (the `Modified` link was taken out and dropped), while
children whose commits succeeded before the failure keep the result of
their successful phase — a formerly `Modified` child remains transitioned
to `Stored` with the freshly computed hash of its committed subtree, and
any other slot is left unchanged. -/
theorem commit_propagates_and_drops_failed_branch :
    (∀ (c : CommitSink) (kv : KV) (pw : Nat) (ch : Nat × Nat)
        (ltree : Tree) (r : Option Link) (lt : Tree) (e : Err),
      commitGo c ltree = (lt, some e) →
      commitGo c (.mk kv (some (.modified pw ch ltree)) r) =
        (.mk kv none r, some e))
    ∧ (∀ (c : CommitSink) (kv : KV) (l l' : Option Link) (pw : Nat)
        (ch : Nat × Nat) (rtree : Tree) (rt : Tree) (e : Err),
      commitLink c l = (l', none) →
      commitGo c rtree = (rt, some e) →
      commitGo c (.mk kv l (some (.modified pw ch rtree))) =
        (.mk kv l' none, some e))
    ∧ (∀ (c : CommitSink) (kv : KV) (l r l' r' : Option Link) (e : Err),
      commitLink c l = (l', none) →
      commitLink c r = (r', none) →
      c.write (.mk kv l' r') = .error e →
      commitGo c (.mk kv l r) = (.mk kv l' r', some e))
    ∧ (∀ (c : CommitSink) (pw : Nat) (ch : Nat × Nat) (tree : Tree)
        (l' : Option Link),
      commitLink c (some (.modified pw ch tree)) = (l', none) →
      ∃ tree' h, commitGo c tree = (tree', none) ∧ tree'.hash? = some h
        ∧ l' = some (.stored h ch tree'))
    ∧ (∀ (c : CommitSink) (l l' : Option Link),
      slotIsModified l = false → commitLink c l = (l', none) → l' = l) := by
  refine ⟨?_, ?_, ?_, ?_, ?_⟩
  · intro c kv pw ch ltree r lt e h
    simp [commitGo, commitLink, h]
  · intro c kv l l' pw ch rtree rt e hcl h
    simp [commitGo, hcl, commitLink, h]
  · intro c kv l r l' r' e hL hR hw
    simp [commitGo, hL, hR, hw]
  · intro c pw ch tree l' hok
    match hg : commitGo c tree with
    | (tree', some e) => simp [commitLink, hg] at hok
    | (tree', none) =>
      match hh : tree'.hash? with
      | none => simp [commitLink, hg, hh] at hok
      | some h =>
        simp [commitLink, hg, hh] at hok
        exact ⟨tree', h, rfl, hh, hok.symm⟩
  · intro c l l' hl hok
    match l with
    | none =>
      simp [commitLink] at hok
      exact hok.symm
    | some (.pruned _ _ _) =>
      simp [commitLink] at hok
      exact hok.symm
    | some (.stored _ _ _) =>
      simp [commitLink] at hok
      exact hok.symm
    | some (.modified _ _ _) => simp [slotIsModified] at hl

/-- Claim C1, witness for the amended theorem on `tTwoDirty` with
`failRightSink`: the left child commits successfully and remains
transitioned to a `Stored` link with its freshly computed hash, the right
child's sink write fails, the right slot is left empty, and the error is
propagated verbatim. -/
theorem commit_propagates_and_drops_failed_branch_witness :
    commitGo failRightSink tTwoDirty =
      (.mk (KV.new [0] [1])
        (some (.stored (node_hash (KV.new [2] [3]).hash NULL_HASH NULL_HASH)
          (0, 0) (Tree.new [2] [3])))
        none,
       some (.recoverable "write failed")) :=
  commit_propagates_and_drops_failed_branch.2.1 failRightSink (KV.new [0] [1])
    (some (.modified 1 (0, 0) (Tree.new [2] [3])))
    (some (.stored (node_hash (KV.new [2] [3]).hash NULL_HASH NULL_HASH)
      (0, 0) (Tree.new [2] [3])))
    1 (0, 0) (Tree.new [4] [5]) (Tree.new [4] [5])
    (.recoverable "write failed") rfl rfl

/-- Claim C2 (code bug): `get` on an exact hit returns the stored value, and
the range-based absence path returns `Ok(None)` for the contiguous map; but
on the gapped map `get([1,2,3,4])` also returns `Ok(None)` where the claim
(and the repository's own `map_get_missing_absence_proof` test) expects an
error, because `check_end_bound` branches on the last key seen — `none` for
an empty range slice — instead of on the requested end bound. -/
theorem map_get_examples :
    (buildFromList [.kv [1,2,3] [1], .hash h20, .kv [1,2,4] [2]] = .ok mGap)
    ∧ mGap.get [1,2,3] = .ok (some [1])
    ∧ mGap.get [1,2,3,4] = .ok none
    ∧ (buildFromList [.kv [1,2,3] [1], .kv [1,2,4] [2]] = .ok mCont)
    ∧ mCont.get [1,2,3,4] = .ok none := by
  exact ⟨rfl, rfl, rfl, rfl, rfl⟩

/-- Claim C3 (code bug): the gapped range yields one Ok item then the
terminal missing-data error, as claimed; but `range([1,2,3],[1,2,5])` on the
fully contiguous three-leaf map yields three Ok items — the end bound is
inclusive, so `[1,2,5]` is yielded — where the claim (and the repository's
own `range_ok` test) expects exactly two. -/
theorem range_run_examples :
    ((mGap.range [1,2,3] [1,2,4]).run =
      ([([1,2,3], [1])],
        some (.recoverable "Proof is missing data for query")))
    ∧ (buildFromList
        [.kv [1,2,3] [1], .kv [1,2,4] [2], .kv [1,2,5] [3]] = .ok m3)
    ∧ ((m3.range [1,2,3] [1,2,5]).run =
      ([([1,2,3], [1]), ([1,2,4], [2]), ([1,2,5], [3])], none)) := by
  exact ⟨rfl, rfl, rfl⟩

/-- Looking up the just-inserted key in `entriesInsert` finds the new
entry. -/
theorem entriesInsert_find (k : Key) (v : Bool × Value) (l : List Entry) :
    (entriesInsert k v l).find? (fun e => e.1 = k) = some (k, v.1, v.2) := by
  induction l with
  | nil => simp [entriesInsert]
  | cons hd tl ih =>
    obtain ⟨k', v'⟩ := hd
    by_cases h1 : keyLt k k' = true
    · simp [entriesInsert, h1]
    · by_cases h2 : k = k'
      · subst h2
        simp [entriesInsert, h1, List.find?]
      · have h2' : k' ≠ k := fun h => h2 h.symm
        simp [entriesInsert, h1, h2, List.find?, h2', ih]

/-- Claim C4: with at least one previously stored full leaf, inserting a
full leaf whose key is not strictly greater than the previous leaf's key
(out of order or duplicate) fails with the recoverable ordering error, and
the insert succeeds otherwise. -/
theorem builder_insert_ordering (b : JsMap) (prevKey : Key) (c : Bool)
    (prevVal : Value) (k : Key) (v : Value)
    (h : b.lastKeyValue = some (prevKey, c, prevVal)) :
    (keyLt prevKey k = false →
      JsMapBuilder.insert b (.kv k v) =
        .error (.recoverable "Expected nodes to be in increasing key order"))
    ∧ (keyLt prevKey k = true →
      JsMapBuilder.insert b (.kv k v) =
        .ok ⟨entriesInsert k (b.right_edge, v) b.entries, true⟩) := by
  constructor <;> intro hlt <;> simp [JsMapBuilder.insert, h, hlt]

/-- Claim C4, witness: inserting `[1,2,2]` (decreasing) or `[1,2,3]`
(duplicate) after the leaf `[1,2,3]` fails with the ordering error. -/
theorem builder_insert_ordering_witness :
    (JsMapBuilder.insert ⟨[([1,2,3], true, [1])], true⟩ (.kv [1,2,2] []) =
      .error (.recoverable "Expected nodes to be in increasing key order"))
    ∧ (JsMapBuilder.insert ⟨[([1,2,3], true, [1])], true⟩ (.kv [1,2,3] []) =
      .error (.recoverable "Expected nodes to be in increasing key order")) :=
  ⟨(builder_insert_ordering ⟨[([1,2,3], true, [1])], true⟩ [1,2,3] true [1]
      [1,2,2] [] rfl).1 (by decide),
   (builder_insert_ordering ⟨[([1,2,3], true, [1])], true⟩ [1,2,3] true [1]
      [1,2,3] [] rfl).1 (by decide)⟩

/-- Claim C5: `right_edge` starts true, is set false by hash-only and
key/value-hash-only proof nodes (entries unchanged), is set back to true by
a full leaf, and each successfully inserted leaf is stored with `contiguous`
equal to the `right_edge` value at the moment of insertion; the concrete
leaf/hash-only/leaf example yields `contiguous = true` then `false` with
final `right_edge = true`. -/
theorem builder_right_edge_lifecycle :
    (JsMapBuilder.new.right_edge = true)
    ∧ (∀ (b : JsMap) (h : Hash),
        JsMapBuilder.insert b (.hash h) = .ok ⟨b.entries, false⟩)
    ∧ (∀ (b : JsMap) (h : Hash),
        JsMapBuilder.insert b (.kvHash h) = .ok ⟨b.entries, false⟩)
    ∧ (∀ (b b' : JsMap) (k : Key) (v : Value),
        JsMapBuilder.insert b (.kv k v) = .ok b' →
        b'.right_edge = true ∧ b'.getEntry k = some (b.right_edge, v))
    ∧ (buildFromList [.kv [1,2,3] [1], .hash h20, .kv [1,2,4] [2]] =
        .ok ⟨[([1,2,3], true, [1]), ([1,2,4], false, [2])], true⟩) := by
  refine ⟨rfl, fun b h => rfl, fun b h => rfl, ?_, rfl⟩
  intro b b' k v h
  have hentries : b' = ⟨entriesInsert k (b.right_edge, v) b.entries, true⟩ := by
    match hlast : b.lastKeyValue with
    | none =>
      simp [JsMapBuilder.insert, hlast] at h
      exact h.symm
    | some (pk, pc, pv) =>
      by_cases hlt : keyLt pk k = true
      · simp [JsMapBuilder.insert, hlast, hlt] at h
        exact h.symm
      · simp [JsMapBuilder.insert, hlast, hlt] at h
  subst hentries
  exact ⟨rfl, by simp [JsMap.getEntry, entriesInsert_find]⟩

/-- Claim C5, witness: inserting a leaf into a map whose `right_edge` is
false stores it with `contiguous = false` and restores `right_edge` to
true. -/
theorem builder_right_edge_lifecycle_witness :
    ((⟨[([1], false, [2])], true⟩ : JsMap).right_edge = true)
    ∧ ((⟨[([1], false, [2])], true⟩ : JsMap).getEntry [1] =
        some (false, [2])) :=
  builder_right_edge_lifecycle.2.2.2.1 ⟨[], false⟩ ⟨[([1], false, [2])], true⟩
    [1] [2] rfl

/-- Claim C6: a node's hash is `node_hash` of its `kv_hash` and the two
child hashes, where an absent child contributes `NULL_HASH` and a pruned or
stored child contributes its cached hash; the same composition applied
recursively is the semantic Merkle root. -/
theorem hash_composition :
    (∀ (t : Tree) (l r : Hash),
      t.childHash? true = some l → t.childHash? false = some r →
      t.hash? = some (node_hash t.kvHash l r))
    ∧ (∀ (t : Tree) (left : Bool), t.link left = none →
        t.childHash? left = some NULL_HASH)
    ∧ (∀ (t : Tree) (left : Bool) (hash : Hash) (ch : Nat × Nat) (k : Key),
        t.link left = some (.pruned hash ch k) →
        t.childHash? left = some hash)
    ∧ (∀ (t : Tree) (left : Bool) (hash : Hash) (ch : Nat × Nat) (sub : Tree),
        t.link left = some (.stored hash ch sub) →
        t.childHash? left = some hash)
    ∧ (∀ (kv : KV) (l r : Option Link),
        Tree.semHash (.mk kv l r) =
          node_hash kv.hash (slotSemHash l) (slotSemHash r)) := by
  refine ⟨?_, ?_, ?_, ?_, fun kv l r => rfl⟩
  · intro t l r hl hr
    simp [Tree.hash?, hl, hr]
  · intro t left h
    simp [Tree.childHash?, h]
  · intro t left hash ch k h
    simp [Tree.childHash?, h, Link.hash?]
  · intro t left hash ch sub h
    simp [Tree.childHash?, h, Link.hash?]

/-- Claim C6, witness at a childless leaf: both sides contribute
`NULL_HASH`. -/
theorem hash_composition_witness :
    (Tree.new [0] [1]).hash? =
      some (node_hash (Tree.new [0] [1]).kvHash NULL_HASH NULL_HASH) :=
  hash_composition.1 (Tree.new [0] [1]) NULL_HASH NULL_HASH rfl rfl

/-- Claim C7: `attach` into an occupied slot always fails fatally, `attach`
of a child whose key equals the parent's always fails fatally, and when
neither condition holds it installs the child as a materialized-dirty link
and has no other effect. -/
theorem attach_contract :
    (∀ (t : Tree) (left : Bool) (child : Option Tree),
      (t.link left).isSome = true →
      ∃ msg, t.attach left child = .error (.fatal msg))
    ∧ (∀ (t : Tree) (left : Bool) (child : Tree),
      child.key = t.key →
      t.attach left (some child) =
        .error (.fatal "Tried to attach tree with same key"))
    ∧ (∀ (t : Tree) (left : Bool) (child : Option Tree),
      t.link left = none →
      child.map Tree.key ≠ some t.key →
      t.attach left child =
        .ok (t.withSlot left (Link.maybeFromModifiedTree child))) := by
  refine ⟨?_, ?_, ?_⟩
  · intro t left child hocc
    by_cases hk : child.map Tree.key = some t.key
    · exact ⟨"Tried to attach tree with same key", by simp [Tree.attach, hk]⟩
    · exact ⟨"Tried to attach to tree slot, but it is already Some",
        by simp [Tree.attach, hk, hocc]⟩
  · intro t left child hk
    simp [Tree.attach, Option.map, hk]
  · intro t left child hocc hk
    simp [Tree.attach, hk, hocc]

/-- Claim C7, witness: attaching a fresh leaf to an empty slot installs a
modified link; the sibling conjuncts are exercised on the occupied slot and
the equal key. -/
theorem attach_contract_witness :
    ((Tree.new [0] [1]).attach true (some (Tree.new [2] [3])) =
      .ok ((Tree.new [0] [1]).withSlot true
        (Link.maybeFromModifiedTree (some (Tree.new [2] [3])))))
    ∧ ((Tree.new [0] [1]).attach false (some (Tree.new [0] [9])) =
      .error (.fatal "Tried to attach tree with same key"))
    ∧ (∃ msg, tDirty.attach true (some (Tree.new [7] [8])) =
        .error (.fatal msg)) :=
  ⟨attach_contract.2.2 (Tree.new [0] [1]) true (some (Tree.new [2] [3]))
      rfl (by decide),
   attach_contract.2.1 (Tree.new [0] [1]) false (Tree.new [0] [9]) rfl,
   attach_contract.1 tDirty true (some (Tree.new [7] [8])) rfl⟩

/-- Claim C8, counterexample: loading through a source that returns a node
with the wrong key fails with a fatal (assertion) error, not the recoverable
integrity error the claim describes. -/
theorem load_mismatch_counterexample :
    tPruned.load true badSource =
      .error (.fatal "fetched tree key does not match link key")
    ∧ isRecoverableResult (tPruned.load true badSource) = false := by
  exact ⟨rfl, rfl⟩

/-- Claim C8, amended: `load` fails fatally unless the link on the given
side is hash-only; it propagates `fetch` failures verbatim; a fetched node
whose key differs from the link's recorded key fails the debug assertion
(fatal, not recoverable); on a key match it installs the fetched node as a
stored link carrying the link's previously known hash and child heights,
without recomputing them. -/
theorem load_behavior :
    (∀ (t : Tree) (left : Bool) (s : Source),
      t.link left = none → ∃ msg, t.load left s = .error (.fatal msg))
    ∧ (∀ (t : Tree) (left : Bool) (s : Source) (pw : Nat) (ch : Nat × Nat)
        (sub : Tree),
      t.link left = some (.modified pw ch sub) →
      ∃ msg, t.load left s = .error (.fatal msg))
    ∧ (∀ (t : Tree) (left : Bool) (s : Source) (hash : Hash)
        (ch : Nat × Nat) (sub : Tree),
      t.link left = some (.stored hash ch sub) →
      ∃ msg, t.load left s = .error (.fatal msg))
    ∧ (∀ (t : Tree) (left : Bool) (s : Source) (hash : Hash)
        (ch : Nat × Nat) (k : Key) (e : Err),
      t.link left = some (.pruned hash ch k) →
      s.fetch (.pruned hash ch k) = .error e →
      t.load left s = .error e)
    ∧ (∀ (t : Tree) (left : Bool) (s : Source) (hash : Hash)
        (ch : Nat × Nat) (k : Key) (fetched : Tree),
      t.link left = some (.pruned hash ch k) →
      s.fetch (.pruned hash ch k) = .ok fetched →
      fetched.key ≠ k →
      t.load left s =
        .error (.fatal "fetched tree key does not match link key"))
    ∧ (∀ (t : Tree) (left : Bool) (s : Source) (hash : Hash)
        (ch : Nat × Nat) (k : Key) (fetched : Tree),
      t.link left = some (.pruned hash ch k) →
      s.fetch (.pruned hash ch k) = .ok fetched →
      fetched.key = k →
      t.load left s =
        .ok (t.withSlot left (some (.stored hash ch fetched)))) := by
  refine ⟨?_, ?_, ?_, ?_, ?_, ?_⟩
  · intro t left s h
    exact ⟨"Expected link", by simp [Tree.load, h]⟩
  · intro t left s pw ch sub h
    exact ⟨"Expected Some of Link Pruned", by simp [Tree.load, h]⟩
  · intro t left s hash ch sub h
    exact ⟨"Expected Some of Link Pruned", by simp [Tree.load, h]⟩
  · intro t left s hash ch k e h hf
    simp [Tree.load, h, hf]
  · intro t left s hash ch k fetched h hf hk
    simp [Tree.load, h, hf, Link.key, hk]
  · intro t left s hash ch k fetched h hf hk
    simp [Tree.load, h, hf, Link.key, hk]

/-- Claim C8, witness: a successful load installs the fetched node as a
stored link with the link's recorded hash and child heights. -/
theorem load_behavior_witness :
    tPruned.load true goodSource =
      .ok (tPruned.withSlot true
        (some (.stored h20 (0, 0) (Tree.new [2] [20])))) :=
  load_behavior.2.2.2.2.2 tPruned true goodSource h20 (0, 0) [2]
    (Tree.new [2] [20]) rfl rfl rfl

/-! ### Helper lemmas about `commit` and `load` -/

/-- Whether the link in a slot (if any) has a readable cached hash. -/
def slotHashDefined : Option Link → Bool
  | none => true
  | some lk => lk.hash?.isSome

/-- A slot with a readable hash yields a defined child hash. -/
theorem childHash_isSome (t : Tree) (left : Bool)
    (h : slotHashDefined (t.link left) = true) :
    ∃ hh, t.childHash? left = some hh := by
  match hs : t.link left with
  | none => exact ⟨NULL_HASH, by simp [Tree.childHash?, hs]⟩
  | some lk =>
    rw [hs] at h
    simp [slotHashDefined] at h
    obtain ⟨hh, hhh⟩ := Option.isSome_iff_exists.mp h
    exact ⟨hh, by simp [Tree.childHash?, hs, hhh]⟩

/-- A tree whose slots both carry readable hashes has a defined node
hash. -/
theorem hash_isSome_of_slots (t : Tree)
    (hl : slotHashDefined (t.link true) = true)
    (hr : slotHashDefined (t.link false) = true) :
    (t.hash?).isSome = true := by
  obtain ⟨a, ha⟩ := childHash_isSome t true hl
  obtain ⟨b, hb⟩ := childHash_isSome t false hr
  simp [Tree.hash?, ha, hb]

/-- The no-op sink's write always succeeds. -/
theorem NoopCommit_write (t : Tree) : NoopCommit.write t = .ok () := rfl

/-- The no-op sink never prunes. -/
theorem NoopCommit_prune (t : Tree) : NoopCommit.prune t = (false, false) := rfl

mutual

/-- With the no-op sink, one side's commit phase never fails and leaves a
slot whose hash is readable. -/
theorem commitLink_noop (l : Option Link) :
    (commitLink NoopCommit l).2 = none
    ∧ slotHashDefined (commitLink NoopCommit l).1 = true := by
  match l with
  | none => exact ⟨rfl, rfl⟩
  | some (.pruned _ _ _) => exact ⟨rfl, rfl⟩
  | some (.stored _ _ _) => exact ⟨rfl, rfl⟩
  | some (.modified pw ch tree) =>
    obtain ⟨h1, h2⟩ := commitGo_noop tree
    match hg : commitGo NoopCommit tree with
    | (tree', e) =>
      rw [hg] at h1 h2
      simp at h1 h2
      subst h1
      match hh : tree'.hash? with
      | none => rw [hh] at h2; simp at h2
      | some h =>
        simp [commitLink, hg, hh, slotHashDefined, Link.hash?]

/-- With the no-op sink, `commit` never fails and leaves a tree whose node
hash is defined (no modified top link remains). -/
theorem commitGo_noop (t : Tree) :
    (commitGo NoopCommit t).2 = none
    ∧ ((commitGo NoopCommit t).1).hash?.isSome = true := by
  match t with
  | .mk kv l r =>
    obtain ⟨hel, hdl⟩ := commitLink_noop l
    obtain ⟨her, hdr⟩ := commitLink_noop r
    match hL : commitLink NoopCommit l with
    | (l', el) =>
      match hR : commitLink NoopCommit r with
      | (r', er) =>
        rw [hL] at hel hdl
        rw [hR] at her hdr
        simp at hel her
        subst hel
        subst her
        have hres : commitGo NoopCommit (.mk kv l r) = (.mk kv l' r', none) := by
          simp [commitGo, hL, hR, NoopCommit_write, NoopCommit_prune]
        rw [hres]
        exact ⟨rfl, hash_isSome_of_slots (.mk kv l' r')
          (by simpa [Tree.link, Tree.leftLink] using hdl)
          (by simpa [Tree.link, Tree.rightLink] using hdr)⟩

end

/-- A tree whose node hash is defined has no modified top link, so `commit`
with the no-op sink returns it completely unchanged. -/
theorem commitGo_of_hash_defined (t : Tree) (h : Hash)
    (hh : t.hash? = some h) : commitGo NoopCommit t = (t, none) := by
  match t with
  | .mk kv l r =>
    have hl : commitLink NoopCommit l = (l, none) := by
      match l with
      | none => rfl
      | some (.pruned _ _ _) => rfl
      | some (.stored _ _ _) => rfl
      | some (.modified _ _ _) =>
        simp [Tree.hash?, Tree.childHash?, Tree.link, Tree.leftLink,
          Link.hash?] at hh
    have hr : commitLink NoopCommit r = (r, none) := by
      match r with
      | none => rfl
      | some (.pruned _ _ _) => rfl
      | some (.stored _ _ _) => rfl
      | some (.modified _ _ _) =>
        simp [Tree.hash?, Tree.childHash?, Tree.link, Tree.leftLink,
          Tree.rightLink, Link.hash?] at hh
    simp [commitGo, hl, hr, NoopCommit_write, NoopCommit_prune]

/-- A successful `load` preserves the node hash: the stored link it installs
carries the pruned link's previously known hash. -/
theorem load_ok_hash (t t' : Tree) (left : Bool) (s : Source)
    (h : t.load left s = .ok t') : t'.hash? = t.hash? := by
  match hs : t.link left with
  | none => simp [Tree.load, hs] at h
  | some (.modified _ _ _) => simp [Tree.load, hs] at h
  | some (.stored _ _ _) => simp [Tree.load, hs] at h
  | some (.pruned hash ch k) =>
    match hf : s.fetch (.pruned hash ch k) with
    | .error e => simp [Tree.load, hs, hf] at h
    | .ok fetched =>
      by_cases hk : fetched.key = k
      · have ht' : t' = t.withSlot left (some (.stored hash ch fetched)) := by
          simp [Tree.load, hs, hf, Link.key, hk] at h
          exact h.symm
        subst ht'
        match t with
        | .mk kv tl tr =>
          cases left with
          | true =>
            have : tl = some (.pruned hash ch k) := by
              simpa [Tree.link, Tree.leftLink] using hs
            subst this
            simp [Tree.withSlot, Tree.hash?, Tree.childHash?, Tree.link,
              Tree.leftLink, Tree.rightLink, Tree.kvHash, Tree.kv, Link.hash?]
          | false =>
            have : tr = some (.pruned hash ch k) := by
              simpa [Tree.link, Tree.rightLink] using hs
            subst this
            simp [Tree.withSlot, Tree.hash?, Tree.childHash?, Tree.link,
              Tree.leftLink, Tree.rightLink, Tree.kvHash, Tree.kv, Link.hash?]
      · simp [Tree.load, hs, hf, Link.key, hk] at h

/-- Claim C9: commit with the no-op sink always succeeds; when the
pre-commit node hash is defined it is unchanged by the commit; and loading
any hash-only link through any source that succeeds leaves the node hash
identical, so the commit/load round trip reconstructs a tree with the same
`hash()`. -/
theorem commit_noop_load_roundtrip :
    (∀ t : Tree, (commitGo NoopCommit t).2 = none)
    ∧ (∀ (t : Tree) (h : Hash), t.hash? = some h →
        ((commitGo NoopCommit t).1).hash? = some h)
    ∧ (∀ (t t' : Tree) (left : Bool) (s : Source),
        t.load left s = .ok t' → t'.hash? = t.hash?) := by
  refine ⟨fun t => (commitGo_noop t).1, ?_, load_ok_hash⟩
  intro t h hh
  rw [commitGo_of_hash_defined t h hh]
  exact hh

/-- Claim C9, witness: the round trip at a tree with a pruned link — commit
succeeds and preserves the hash, and loading the pruned link through
`goodSource` preserves it again. -/
theorem commit_noop_load_roundtrip_witness :
    ((commitGo NoopCommit tPruned).1).hash? =
      some (node_hash (KV.new [1] [10]).hash h20 NULL_HASH)
    ∧ ((tPruned.withSlot true
        (some (.stored h20 (0, 0) (Tree.new [2] [20])))).hash? =
          tPruned.hash?) :=
  ⟨commit_noop_load_roundtrip.2.1 tPruned
      (node_hash (KV.new [1] [10]).hash h20 NULL_HASH) rfl,
   commit_noop_load_roundtrip.2.2 tPruned
      (tPruned.withSlot true (some (.stored h20 (0, 0) (Tree.new [2] [20]))))
      true goodSource rfl⟩

/-- A slot with no modified link and a valid cached hash contributes its
semantic Merkle hash as the child hash. -/
theorem childHash_semHash (t : Tree) (left : Bool)
    (hnm : slotNoModified (t.link left) = true)
    (hv : slotHashesValid (t.link left) = true) :
    t.childHash? left = some (slotSemHash (t.link left)) := by
  match hs : t.link left with
  | none => simp [Tree.childHash?, hs, slotSemHash]
  | some (.pruned hh ch k) =>
    simp [Tree.childHash?, hs, Link.hash?, slotSemHash]
  | some (.modified pw ch tree) =>
    rw [hs] at hnm
    simp [slotNoModified] at hnm
  | some (.stored hh ch tree) =>
    rw [hs] at hv
    simp [slotHashesValid] at hv
    simp [Tree.childHash?, hs, Link.hash?, slotSemHash, hv.1]

/-- On a tree with no modified link and valid cached hashes, the node hash
is defined and equals the semantic Merkle root. -/
theorem hash_eq_semHash (t : Tree) (hnm : t.noModifiedB = true)
    (hv : t.hashesValidB = true) : t.hash? = some t.semHash := by
  match t with
  | .mk kv l r =>
    simp [Tree.noModifiedB] at hnm
    simp [Tree.hashesValidB] at hv
    have hcl := childHash_semHash (.mk kv l r) true
      (by simpa [Tree.link, Tree.leftLink] using hnm.1)
      (by simpa [Tree.link, Tree.leftLink] using hv.1)
    have hcr := childHash_semHash (.mk kv l r) false
      (by simpa [Tree.link, Tree.rightLink] using hnm.2)
      (by simpa [Tree.link, Tree.rightLink] using hv.2)
    simp only [Tree.hash?, hcl, hcr]
    simp [Tree.semHash, Tree.kvHash, Tree.kv, Tree.link, Tree.leftLink,
      Tree.rightLink]

/-- Running `pruneSlot` on a modified-free slot: the result is modified-free, and a
valid cached hash keeps the slot's semantic hash (a stored link degrades to
a pruned link keeping exactly its cached hash). -/
theorem pruneSlot_spec (l l' : Option Link) (h : pruneSlot l = .ok l')
    (hnm : slotNoModified l = true) :
    slotNoModified l' = true
    ∧ (slotHashesValid l = true →
        slotHashesValid l' = true ∧ slotSemHash l' = slotSemHash l) := by
  match l with
  | none =>
    simp [pruneSlot] at h
    subst h
    exact ⟨rfl, fun _ => ⟨rfl, rfl⟩⟩
  | some (.pruned hh ch k) =>
    simp [pruneSlot, Link.intoPruned?] at h
    subst h
    exact ⟨rfl, fun _ => ⟨rfl, rfl⟩⟩
  | some (.modified pw ch tree) =>
    simp [slotNoModified] at hnm
  | some (.stored hh ch tree) =>
    simp [pruneSlot, Link.intoPruned?] at h
    subst h
    refine ⟨rfl, fun hv => ?_⟩
    simp [slotHashesValid] at hv
    simp [slotHashesValid, slotSemHash, hv.1]

/-- One `if`-guarded prune step of `commit` preserves modified-freeness and,
under valid hashes, the slot's semantic hash. -/
theorem pruneStep_spec (b : Bool) (l l' : Option Link)
    (h : (if b then pruneSlot l else .ok l) = .ok l')
    (hnm : slotNoModified l = true) :
    slotNoModified l' = true
    ∧ (slotHashesValid l = true →
        slotHashesValid l' = true ∧ slotSemHash l' = slotSemHash l) := by
  cases b with
  | false =>
    simp at h
    subst h
    exact ⟨hnm, fun hv => ⟨hv, rfl⟩⟩
  | true =>
    simp at h
    exact pruneSlot_spec l l' h hnm

mutual

/-- One side's commit phase, with any sink, on a slot whose stored subtrees
are modified-free: on success the slot is modified-free, and valid cached
hashes stay valid with the slot's semantic hash unchanged (the fresh stored
hash is exactly the committed subtree's Merkle hash). -/
theorem commitLink_clean (c : CommitSink) (l l' : Option Link)
    (hclean : slotStoredClean l = true) (hok : commitLink c l = (l', none)) :
    slotNoModified l' = true
    ∧ (slotHashesValid l = true →
        slotHashesValid l' = true ∧ slotSemHash l' = slotSemHash l) := by
  match l with
  | none =>
    simp [commitLink] at hok
    subst hok
    exact ⟨rfl, fun _ => ⟨rfl, rfl⟩⟩
  | some (.pruned hh ch k) =>
    simp [commitLink] at hok
    subst hok
    exact ⟨rfl, fun _ => ⟨rfl, rfl⟩⟩
  | some (.stored hh ch tree) =>
    simp [commitLink] at hok
    subst hok
    simp [slotStoredClean] at hclean
    exact ⟨by simpa [slotNoModified] using hclean, fun hv => ⟨hv, rfl⟩⟩
  | some (.modified pw ch tree) =>
    simp [slotStoredClean] at hclean
    match hg : commitGo c tree with
    | (tree', some e) => simp [commitLink, hg] at hok
    | (tree', none) =>
      have ih := commitGo_clean c tree tree' hclean hg
      match hh : tree'.hash? with
      | none => simp [commitLink, hg, hh] at hok
      | some h =>
        simp [commitLink, hg, hh] at hok
        subst hok
        refine ⟨by simpa [slotNoModified] using ih.1, fun hv => ?_⟩
        simp [slotHashesValid] at hv
        obtain ⟨hvt, hsem⟩ := ih.2 hv
        have hhs : h = tree'.semHash := by
          have hdef := hash_eq_semHash tree' ih.1 hvt
          rw [hh] at hdef
          exact Option.some.inj hdef
        constructor
        · simp [slotHashesValid, hhs, hvt]
        · simp [slotSemHash, hsem]

/-- Running `commit`, with any sink, on a tree whose stored subtrees are
modified-free: on success no modified link remains, and valid cached hashes
stay valid with the semantic Merkle root unchanged. -/
theorem commitGo_clean (c : CommitSink) (t t' : Tree)
    (hclean : t.storedCleanB = true) (hok : commitGo c t = (t', none)) :
    t'.noModifiedB = true
    ∧ (t.hashesValidB = true →
        t'.hashesValidB = true ∧ t'.semHash = t.semHash) := by
  match t with
  | .mk kv l r =>
    simp [Tree.storedCleanB] at hclean
    match hL : commitLink c l with
    | (l', some e) => simp [commitGo, hL] at hok
    | (l', none) =>
      match hR : commitLink c r with
      | (r', some e) => simp [commitGo, hL, hR] at hok
      | (r', none) =>
        have ihl := commitLink_clean c l l' hclean.1 hL
        have ihr := commitLink_clean c r r' hclean.2 hR
        match hw : c.write (.mk kv l' r') with
        | .error e => simp [commitGo, hL, hR, hw] at hok
        | .ok u =>
          match hpl : (if (c.prune (.mk kv l' r')).1
              then pruneSlot l' else .ok l') with
          | .error e => simp [commitGo, hL, hR, hw, hpl] at hok
          | .ok l2 =>
            match hpr : (if (c.prune (.mk kv l' r')).2
                then pruneSlot r' else .ok r') with
            | .error e => simp [commitGo, hL, hR, hw, hpl, hpr] at hok
            | .ok r2 =>
              have hspl := pruneStep_spec _ l' l2 hpl ihl.1
              have hspr := pruneStep_spec _ r' r2 hpr ihr.1
              have ht' : t' = .mk kv l2 r2 := by
                simp [commitGo, hL, hR, hw, hpl, hpr] at hok
                exact hok.symm
              subst ht'
              refine ⟨?_, fun hv => ?_⟩
              · simp [Tree.noModifiedB, hspl.1, hspr.1]
              · simp [Tree.hashesValidB] at hv
                obtain ⟨hvl2, hsl2⟩ := hspl.2 ((ihl.2 hv.1).1)
                obtain ⟨hvr2, hsr2⟩ := hspr.2 ((ihr.2 hv.2).1)
                constructor
                · simp [Tree.hashesValidB, hvl2, hvr2]
                · simp [Tree.semHash, hsl2, hsr2, (ihl.2 hv.1).2,
                    (ihr.2 hv.2).2]

end

/-- Claim C10: for a tree in which no stored link's subtree contains a
modified link, a successful `commit` with any sink leaves no modified link
anywhere — every remaining link is stored or pruned — and, given valid
pre-commit cached hashes, every post-commit cached hash (in particular the
one on each formerly dirty link) is the freshly computed Merkle hash of its
subtree, with the semantic root unchanged. -/
theorem commit_clears_dirty_links (c : CommitSink) (t t' : Tree)
    (hclean : t.storedCleanB = true) (hok : commitGo c t = (t', none)) :
    t'.noModifiedB = true
    ∧ (t.hashesValidB = true →
        t'.hashesValidB = true
        ∧ t'.hash? = some t'.semHash
        ∧ t'.semHash = t.semHash) := by
  obtain ⟨h1, h2⟩ := commitGo_clean c t t' hclean hok
  refine ⟨h1, fun hv => ?_⟩
  obtain ⟨hv', hsem⟩ := h2 hv
  exact ⟨hv', hash_eq_semHash t' h1 hv', hsem⟩

/-- Claim C10, witness: committing `tDirty` (one dirty leaf link) with the
no-op sink leaves a modified-free tree with valid cached hashes. -/
theorem commit_clears_dirty_links_witness :
    (commitGo NoopCommit tDirty).1.noModifiedB = true
    ∧ (commitGo NoopCommit tDirty).1.hashesValidB = true :=
  ⟨(commit_clears_dirty_links NoopCommit tDirty
      (commitGo NoopCommit tDirty).1 rfl rfl).1,
   ((commit_clears_dirty_links NoopCommit tDirty
      (commitGo NoopCommit tDirty).1 rfl rfl).2 rfl).1⟩

end LiftedMerk
